import Mathlib

/-!
Shallow embedding of the open-addressing hash table in `src/hashtable.c` and
verification of the specification's claims about it.

Modelling conventions:
* A C string key (NUL-terminated, no interior NUL) is modelled as the list of
  its bytes before the terminator (`Key := List Nat`, each element a byte value).
  `strcmp` equality on such strings is list equality.
* A `void*` value is modelled as a `Nat`.  The NULL pointer passed as `value`
  is modelled as `Option.none`; stored values are always non-NULL, so slots
  store a plain `Value`.
* `size_t` / `u_int64_t` arithmetic is `Nat` arithmetic with an explicit
  `% 2 ^ 64` exactly where the C code can overflow (the capacity doubling in
  `hashtable_expand`, and every step of the FNV-1a hash).
* Allocation (`calloc` in `hashtable_expand`, `strdup` in
  `hashtable_set_entry`, `malloc`/`calloc` in `hashtable_create`) is modelled
  by explicit boolean success flags supplied by the caller; `true` means the
  request succeeds.  `strdup key` returns an owned copy, modelled as the same
  list.
* The unbounded probe loops of `hashtable_get` and `hashtable_set_entry`
  revisit their starting slot after `capacity` steps and then cycle forever;
  they are modelled with fuel `capacity`, and the fuel-exhaustion outcome
  (`GetResult.fuelOut`, respectively `none`) marks exactly the inputs on which
  the C loop never terminates.
-/

/-- A key: the bytes of a NUL-terminated C string, without the terminator. -/
abbrev Key := List Nat

/-- An opaque non-NULL `void*` value reference. -/
abbrev Value := Nat

/-- A slot of the entries array: `none` models `key == NULL` (empty slot),
`some (k, v)` an occupied slot.  Mirrors `hashtable_entry` in hashtable.c. -/
abbrev Slot := Option (Key × Value)

/-- Wrap-around modulus of 64-bit machine arithmetic. -/
def U64 : Nat := 2 ^ 64

/-- FNV-1a 64-bit offset basis, `#define FNV_OFFSET` in hashtable.c. -/
def FNV_OFFSET : Nat := 14695981039346656037

/-- FNV-1a 64-bit prime, `#define FNV_PRIME` in hashtable.c. -/
def FNV_PRIME : Nat := 1099511628211

/-- `hash_key` from hashtable.c: 64-bit FNV-1a over the bytes of the key.
Each step XORs the byte (the `(unsigned char)` cast is the `% 256`) into the
accumulator and multiplies by the prime, modulo `2 ^ 64`. -/
def hash_key (key : Key) : Nat :=
  key.foldl (fun hash b => ((hash ^^^ (b % 256)) * FNV_PRIME) % U64) FNV_OFFSET

/-- The `hashtable` struct from hashtable.c. -/
structure hashtable where
  entries : List Slot
  capacity : Nat
  length : Nat
deriving Repr, DecidableEq

/-- `#define INITIAL_CAPACITY 1` in hashtable.c. -/
def INITIAL_CAPACITY : Nat := 1

/-- `hashtable_create`: the two flags model the success of the `malloc` of the
struct and the `calloc` of the entries array; `none` models the NULL return. -/
def hashtable_create (mallocOk callocOk : Bool) : Option hashtable :=
  if mallocOk = false then none
  else if callocOk = false then none
  else some ⟨List.replicate INITIAL_CAPACITY none, INITIAL_CAPACITY, 0⟩

/-- One step of the linear probe: `index++; if (index >= capacity) index = 0;`. -/
def next_index (capacity index : Nat) : Nat :=
  if index + 1 ≥ capacity then 0 else index + 1

/-- Result of `hashtable_get`: `found v` models returning the stored value,
`notFound` the NULL return on reaching an empty slot, and `fuelOut` the C loop
cycling forever (only possible when no empty slot stops the probe). -/
inductive GetResult where
  | found (v : Value)
  | notFound
  | fuelOut
deriving Repr, DecidableEq

/-- The probe loop of `hashtable_get` (hashtable.c lines 72-83). -/
def get_loop (entries : List Slot) (capacity : Nat) (key : Key) :
    Nat → Nat → GetResult
  | 0, _ => .fuelOut
  | fuel + 1, index =>
    match entries.getD index none with
    | none => .notFound
    | some (k, v) =>
      if k = key then .found v
      else get_loop entries capacity key fuel (next_index capacity index)

/-- `hashtable_get`: probe from `hash & (capacity - 1)` with fuel `capacity`
(the C loop revisits its start and cycles after `capacity` steps). -/
def hashtable_get (t : hashtable) (key : Key) : GetResult :=
  get_loop t.entries t.capacity key t.capacity (hash_key key &&& (t.capacity - 1))

/-- Outcome of `hashtable_set_entry`: the returned `const char*` (`none` models
the NULL return on `strdup` failure), the entries array, and `*plength`. -/
structure SetEntryOut where
  ret : Option Key
  entries : List Slot
  length : Nat
deriving Repr, DecidableEq

/-- The probe-and-place loop of `hashtable_set_entry` (hashtable.c lines
95-119).  `usePlength` models `plength != NULL`; when it is true and the key
is absent, `strdupOk` decides whether the `strdup` of the key succeeds.  The
`none` result models the C loop cycling forever (no empty or matching slot). -/
def set_entry_loop (strdupOk : Bool) (entries : List Slot) (capacity : Nat)
    (key : Key) (value : Value) (usePlength : Bool) (length : Nat) :
    Nat → Nat → Option SetEntryOut
  | 0, _ => none
  | fuel + 1, index =>
    match entries.getD index none with
    | some (k, _) =>
      if k = key then
        some ⟨some k, entries.set index (some (k, value)), length⟩
      else
        set_entry_loop strdupOk entries capacity key value usePlength length
          fuel (next_index capacity index)
    | none =>
      if usePlength then
        if strdupOk then
          some ⟨some key, entries.set index (some (key, value)), length + 1⟩
        else
          some ⟨none, entries, length⟩
      else
        some ⟨some key, entries.set index (some (key, value)), length⟩

/-- `hashtable_set_entry`, probing from `hash & (capacity - 1)`. -/
def hashtable_set_entry (strdupOk : Bool) (entries : List Slot) (capacity : Nat)
    (key : Key) (value : Value) (usePlength : Bool) (length : Nat) :
    Option SetEntryOut :=
  set_entry_loop strdupOk entries capacity key value usePlength length
    capacity (hash_key key &&& (capacity - 1))

/-- The reinsertion loop of `hashtable_expand` (hashtable.c lines 136-142):
every occupied slot of the old array is reinserted into the new array with
`plength = NULL`.  `none` propagates a non-terminating reinsertion probe. -/
def expand_loop (capacity : Nat) : List Slot → List Slot → Option (List Slot)
  | [], new_entries => some new_entries
  | none :: rest, new_entries => expand_loop capacity rest new_entries
  | some (k, v) :: rest, new_entries =>
    match hashtable_set_entry true new_entries capacity k v false 0 with
    | none => none
    | some out => expand_loop capacity rest out.entries

/-- `hashtable_expand`: doubling overflow check (`size_t` wrap-around made
explicit by `% U64`), then the `calloc` of the new array (`callocOk`), then
reinsertion of every occupied entry.  Returns the C function's boolean
together with the table; on failure the table is unchanged. -/
def hashtable_expand (callocOk : Bool) (t : hashtable) : Option (Bool × hashtable) :=
  if t.capacity * 2 % U64 < t.capacity then some (false, t)
  else if callocOk = false then some (false, t)
  else
    match expand_loop (t.capacity * 2 % U64) t.entries
        (List.replicate (t.capacity * 2 % U64) none) with
    | none => none
    | some new_entries => some (true, ⟨new_entries, t.capacity * 2 % U64, t.length⟩)

/-- Result of `hashtable_set`: `ok dk` models returning the durable copy `dk`
of the key, `oom` the NULL return on allocation failure or growth overflow,
and `assertFail` the `assert(value != NULL)` firing on a NULL value. -/
inductive SetResult where
  | ok (dk : Key)
  | oom
  | assertFail
deriving Repr, DecidableEq

/-- `hashtable_set` (hashtable.c lines 151-167): assert on NULL value, grow
when `length >= capacity / 2`, then delegate to `hashtable_set_entry` with
`plength = &table->length`. -/
def hashtable_set (callocOk strdupOk : Bool) (t : hashtable) (key : Key)
    (value : Option Value) : Option (SetResult × hashtable) :=
  match value with
  | none => some (.assertFail, t)
  | some v =>
    match (if t.length ≥ t.capacity / 2 then hashtable_expand callocOk t
           else some (true, t)) with
    | none => none
    | some (false, t1) => some (.oom, t1)
    | some (true, t1) =>
      match hashtable_set_entry strdupOk t1.entries t1.capacity key v true t1.length with
      | none => none
      | some out =>
        match out.ret with
        | none => some (.oom, ⟨out.entries, t1.capacity, out.length⟩)
        | some dk => some (.ok dk, ⟨out.entries, t1.capacity, out.length⟩)

/-- `hashtable_length`. -/
def hashtable_length (t : hashtable) : Nat :=
  t.length

/-- The `hashtablei` iterator struct from hashtable.h.  `key`/`value` are left
uninitialized by `hashtable_iterator`, modelled as `none`; the `_table`
pointer is modelled by passing the (unmutated) table to `hashtable_next`. -/
structure hashtablei where
  key : Option Key
  value : Option Value
  idx : Nat
deriving Repr, DecidableEq

/-- `hashtable_iterator`: fresh cursor at slot index 0. -/
def hashtable_iterator (_t : hashtable) : hashtablei :=
  ⟨none, none, 0⟩

/-- The scan loop of `hashtable_next` (hashtable.c lines 183-193).  The fuel
`capacity - index` is exactly the number of remaining loop iterations, so fuel
exhaustion coincides with the loop condition `index < capacity` failing. -/
def next_loop (entries : List Slot) (capacity : Nat) :
    Nat → Nat → Option (Nat × Key × Value)
  | 0, _ => none
  | fuel + 1, index =>
    if index < capacity then
      match entries.getD index none with
      | some (k, v) => some (index + 1, k, v)
      | none => next_loop entries capacity fuel (index + 1)
    else none

/-- `hashtable_next`: advance the iterator over the table it was created on.
Returns the C function's boolean and the updated iterator. -/
def hashtable_next (t : hashtable) (it : hashtablei) : Bool × hashtablei :=
  match next_loop t.entries t.capacity (t.capacity - it.idx) it.idx with
  | some (i, k, v) => (true, ⟨some k, some v, i⟩)
  | none => (false, ⟨it.key, it.value, max it.idx t.capacity⟩)

/-- Driver for iteration, as a caller would write `while (hashtable_next(&it))`:
collect the (key, value) items produced by `fuel` successive advances. -/
def run_iter (t : hashtable) (it : hashtablei) : Nat → List (Key × Value)
  | 0 => []
  | fuel + 1 =>
    match hashtable_next t it with
    | (true, it') => (it'.key.getD [], it'.value.getD 0) :: run_iter t it' fuel
    | (false, _) => []

/-! ## Invariants of reachable tables -/

/-- Number of occupied slots in an entries array. -/
def occ (e : List Slot) : Nat :=
  e.countP (fun s => s.isSome)

/-- Key stored in a slot (`[]` for an empty slot; only used under `isSome`). -/
def keyOf (s : Slot) : Key :=
  match s with
  | some (k, _) => k
  | none => []

/-- Home slot of a key: the probe start index `hash & (capacity - 1)`. -/
def home (c : Nat) (k : Key) : Nat :=
  hash_key k &&& (c - 1)

/-- Forward probe distance from index `a` to index `b` in a circular array of
`c` slots: the number of probe steps needed to walk from `a` to `b`. -/
def pdist (c a b : Nat) : Nat :=
  if a ≤ b then b - a else b + c - a

/-- Every slot strictly between `p` and `i` on the probe path is occupied by a
key different from `k`. -/
def PathClear (e : List Slot) (c : Nat) (k : Key) (p i : Nat) : Prop :=
  ∀ j, j < c → pdist c p j < pdist c p i →
    ∃ kj vj, e.getD j none = some (kj, vj) ∧ kj ≠ k

/-- Linear-probing chain invariant: every occupied slot is reachable from its
key's home slot through a run of occupied slots (insertion never leaves a gap
in front of an entry, which is what makes an empty slot a proof of absence). -/
def ChainInv (e : List Slot) (c : Nat) : Prop :=
  ∀ i, i < c → ∀ j, j < c → (e.getD i none).isSome = true →
    pdist c (home c (keyOf (e.getD i none))) j <
      pdist c (home c (keyOf (e.getD i none))) i →
    (e.getD j none).isSome = true

/-- No key occurs in two distinct slots. -/
def KeysDistinct (e : List Slot) (c : Nat) : Prop :=
  ∀ i, i < c → ∀ j, j < c → (e.getD i none).isSome = true →
    (e.getD j none).isSome = true →
    keyOf (e.getD i none) = keyOf (e.getD j none) → i = j

/-- The pair `(k, v)` is stored in some slot. -/
def PairAt (e : List Slot) (c : Nat) (k : Key) (v : Value) : Prop :=
  ∃ i, i < c ∧ e.getD i none = some (k, v)

/-- Well-formedness of a table state, maintained by every API operation:
the entries array has exactly `capacity` slots; capacity is a power of two
(invariant I1) representable in `size_t` (at most `2 ^ 63`, since any larger
power overflows when doubled, so growth stops there); `length` counts the occupied slots and stays
at or below half the capacity (invariant I2); and the occupied slots satisfy
the probing chain invariant with pairwise distinct keys. -/
def WF (t : hashtable) : Prop :=
  t.entries.length = t.capacity ∧
  (∃ j, j < 64 ∧ t.capacity = 2 ^ j) ∧
  t.length = occ t.entries ∧
  t.length ≤ t.capacity / 2 ∧
  ChainInv t.entries t.capacity ∧
  KeysDistinct t.entries t.capacity

/-- Table states produced by `hashtable_create` followed by any sequence of
`hashtable_set` calls, successful or failed, with any allocation outcomes. -/
inductive Reachable : hashtable → Prop where
  | created (t : hashtable) : hashtable_create true true = some t → Reachable t
  | stepped (t : hashtable) (ca sa : Bool) (k : Key) (v : Option Value)
      (r : SetResult) (t' : hashtable) : Reachable t →
      hashtable_set ca sa t k v = some (r, t') → Reachable t'

/-! ## Probe-distance arithmetic -/

lemma pdist_self (c a : Nat) : pdist c a a = 0 := by
  simp [pdist]

lemma pdist_lt (c a b : Nat) (ha : a < c) (hb : b < c) : pdist c a b < c := by
  unfold pdist; split <;> omega

lemma pdist_eq_zero (c a b : Nat) (ha : a < c) (hb : b < c)
    (h : pdist c a b = 0) : a = b := by
  unfold pdist at h; split at h <;> omega

lemma next_index_lt (c a : Nat) (hc : 0 < c) : next_index c a < c := by
  unfold next_index; split <;> omega

lemma pdist_next (c a b : Nat) (ha : a < c) (hb : b < c) (hne : a ≠ b) :
    pdist c (next_index c a) b + 1 = pdist c a b := by
  unfold pdist next_index
  by_cases h : a + 1 ≥ c <;> simp only [h, if_true, if_false, ge_iff_le] <;> split <;> split <;> omega

lemma pdist_next_self (c a : Nat) (ha : a < c) :
    pdist c (next_index c a) a = c - 1 := by
  unfold pdist next_index
  by_cases h : a + 1 ≥ c <;> simp only [h, if_true, if_false, ge_iff_le] <;> split <;> omega

lemma pdist_right_inj (c a b b' : Nat) (ha : a < c) (hb : b < c) (hb' : b' < c)
    (h : pdist c a b = pdist c a b') : b = b' := by
  unfold pdist at h; split at h <;> split at h <;> omega

lemma home_lt (c : Nat) (k : Key) (hc : 0 < c) : home c k < c := by
  have h := Nat.and_le_right (n := hash_key k) (m := c - 1)
  unfold home; omega

/-! ## Entries-array bookkeeping lemmas -/

lemma getD_set_eq (l : List Slot) (i : Nat) (a : Slot) (h : i < l.length) :
    (l.set i a).getD i none = a := by
  simp [List.getD_eq_getElem?_getD, List.getElem?_set_self', h]

lemma getD_set_ne (l : List Slot) (i j : Nat) (a : Slot) (h : i ≠ j) :
    (l.set i a).getD j none = l.getD j none := by
  simp [List.getD_eq_getElem?_getD, List.getElem?_set_ne h]

lemma getD_of_length_le (l : List Slot) (i : Nat) (h : l.length ≤ i) :
    l.getD i none = none := by
  simp [List.getD_eq_getElem?_getD, List.getElem?_eq_none h]

lemma lt_length_of_getD_some (l : List Slot) (i : Nat) (x : Key × Value)
    (h : l.getD i none = some x) : i < l.length := by
  by_contra hn
  rw [getD_of_length_le l i (by omega)] at h
  cases h

lemma occ_cons (s : Slot) (l : List Slot) :
    occ (s :: l) = (if s.isSome then 1 else 0) + occ l := by
  cases s <;> simp [occ, List.countP_cons] <;> omega

lemma occ_le_length (l : List Slot) : occ l ≤ l.length :=
  List.countP_le_length _

lemma occ_set_insert (l : List Slot) (i : Nat) (x : Key × Value)
    (hi : i < l.length) (hempty : l.getD i none = none) :
    occ (l.set i (some x)) = occ l + 1 := by
  induction l generalizing i with
  | nil => simp at hi
  | cons hd tl ih =>
    cases i with
    | zero =>
      simp only [List.getD, List.getElem?_cons_zero, Option.getD_some] at hempty
      subst hempty
      simp [List.set, occ_cons]
      omega
    | succ n =>
      simp only [List.length_cons, Nat.succ_lt_succ_iff] at hi
      have hemp : tl.getD n none = none := by simpa [List.getD] using hempty
      simp [List.set, occ_cons, ih n hi hemp]
      omega

lemma occ_set_update (l : List Slot) (i : Nat) (x y : Key × Value)
    (hsome : l.getD i none = some y) :
    occ (l.set i (some x)) = occ l := by
  induction l generalizing i with
  | nil => simp [List.getD] at hsome
  | cons hd tl ih =>
    cases i with
    | zero =>
      simp only [List.getD, List.getElem?_cons_zero, Option.getD_some] at hsome
      subst hsome
      simp [List.set, occ_cons]
    | succ n =>
      have hs : tl.getD n none = some y := by simpa [List.getD] using hsome
      simp [List.set, occ_cons, ih n hs]

lemma exists_empty_slot (l : List Slot) (c : Nat) (hlen : l.length = c)
    (hocc : occ l < c) : ∃ i, i < c ∧ l.getD i none = none := by
  induction l generalizing c with
  | nil => simp at hlen; simp [occ] at hocc; omega
  | cons hd tl ih =>
    cases hd with
    | none => exact ⟨0, by simp at hlen; omega, rfl⟩
    | some x =>
      have hlen' : tl.length = c - 1 := by simp at hlen; omega
      have hocc' : occ tl < c - 1 := by
        have := occ_cons (some x) tl
        simp at this
        omega
      obtain ⟨i, hi, hgd⟩ := ih (c - 1) hlen' hocc'
      refine ⟨i + 1, by omega, by simpa [List.getD] using hgd⟩

lemma occ_replicate (n : Nat) : occ (List.replicate n (none : Slot)) = 0 := by
  induction n with
  | zero => rfl
  | succ m ih => rw [List.replicate_succ, occ_cons]; simp [ih]

lemma getD_replicate (n i : Nat) :
    (List.replicate n (none : Slot)).getD i none = none := by
  rcases Nat.lt_or_ge i n with h | h
  · rw [List.getD_eq_getElem _ _ (by simpa using h)]
    simp
  · exact getD_of_length_le _ _ (by simpa using h)

lemma pairAt_iff_mem (e : List Slot) (c : Nat) (hlen : e.length = c)
    (k : Key) (v : Value) : PairAt e c k v ↔ some (k, v) ∈ e := by
  constructor
  · rintro ⟨i, hi, hgd⟩
    rw [List.getD_eq_getElem e none (by omega)] at hgd
    exact hgd ▸ List.getElem_mem _
  · intro hm
    obtain ⟨i, hi, heq⟩ := List.mem_iff_getElem.mp hm
    exact ⟨i, by omega, by rw [List.getD_eq_getElem e none hi]; exact heq⟩

/-! ## Probe lemmas: the linear probe finds what the chain invariant promises -/

lemma get_loop_found (e : List Slot) (c : Nat) (k : Key) (v : Value) (i : Nat)
    (hi : i < c) (hslot : e.getD i none = some (k, v)) :
    ∀ fuel p, p < c → pdist c p i < fuel → PathClear e c k p i →
      get_loop e c k fuel p = .found v := by
  intro fuel
  induction fuel with
  | zero => intro p hp hf hpath; omega
  | succ f ih =>
    intro p hp hf hpath
    by_cases hpi : p = i
    · subst hpi
      simp only [get_loop, hslot]
      simp
    · have h0 : pdist c p i ≠ 0 := fun h => hpi (pdist_eq_zero c p i hp hi h)
      have hps := pdist_self c p
      obtain ⟨kj, vj, hj, hkj⟩ := hpath p hp (by omega)
      simp only [get_loop, hj, if_neg hkj]
      have hd2 := pdist_next c p i hp hi hpi
      apply ih (next_index c p) (next_index_lt c p (by omega)) (by omega)
      intro j hj2 hlt
      by_cases hjp : j = p
      · subst hjp
        have h1 := pdist_next_self c j (by omega)
        have h2 := pdist_lt c (next_index c j) i (next_index_lt c j (by omega)) hi
        omega
      · have hd1 := pdist_next c p j hp hj2 (fun hh => hjp hh.symm)
        exact hpath j hj2 (by omega)

lemma get_loop_ne_fuelOut (e : List Slot) (c : Nat) (k : Key) (i : Nat)
    (hi : i < c) (hempty : e.getD i none = none) :
    ∀ fuel p, p < c → pdist c p i < fuel → get_loop e c k fuel p ≠ .fuelOut := by
  intro fuel
  induction fuel with
  | zero => intro p hp hf; omega
  | succ f ih =>
    intro p hp hf
    rcases hgd : e.getD p none with _ | ⟨kp, vp⟩
    · simp only [get_loop, hgd]
      intro h; cases h
    · have hpi : p ≠ i := by intro hh; rw [hh, hempty] at hgd; cases hgd
      simp only [get_loop, hgd]
      by_cases hk : kp = k
      · rw [if_pos hk]; intro h; cases h
      · rw [if_neg hk]
        have hd := pdist_next c p i hp hi hpi
        exact ih (next_index c p) (next_index_lt c p (by omega)) (by omega)

lemma set_entry_loop_spec (e : List Slot) (c : Nat) (k : Key) (v : Value)
    (u s : Bool) (l : Nat) :
    ∀ fuel p out, p < c → set_entry_loop s e c k v u l fuel p = some out →
    ∃ i, i < c ∧ PathClear e c k p i ∧
      ((∃ v0, e.getD i none = some (k, v0) ∧
          out = ⟨some k, e.set i (some (k, v)), l⟩) ∨
       (e.getD i none = none ∧
         ((out = ⟨some k, e.set i (some (k, v)), if u then l + 1 else l⟩ ∧
             (u = true → s = true)) ∨
          (u = true ∧ s = false ∧ out = ⟨none, e, l⟩)))) := by
  intro fuel
  induction fuel with
  | zero => intro p out hp h; cases h
  | succ f ih =>
    intro p out hp h
    rcases hgd : e.getD p none with _ | ⟨kp, vp⟩
    · simp only [set_entry_loop, hgd] at h
      refine ⟨p, hp, ?_, Or.inr ⟨hgd, ?_⟩⟩
      · intro j hj hlt; rw [pdist_self] at hlt; omega
      · cases u with
        | false =>
          simp only [Bool.false_eq_true, if_false] at h
          injection h with h'
          exact Or.inl ⟨by rw [← h']; simp, by simp⟩
        | true =>
          cases s with
          | true =>
            simp only [if_true] at h
            injection h with h'
            exact Or.inl ⟨by rw [← h']; simp, fun _ => rfl⟩
          | false =>
            simp only [Bool.false_eq_true, if_false, if_true] at h
            exact Or.inr ⟨rfl, rfl, by injection h with h'; rw [← h']⟩
    · simp only [set_entry_loop, hgd] at h
      by_cases hk : kp = k
      · subst hk
        rw [if_pos rfl] at h
        refine ⟨p, hp, ?_, Or.inl ⟨vp, hgd, by injection h with h'; rw [← h']⟩⟩
        intro j hj hlt; rw [pdist_self] at hlt; omega
      · rw [if_neg hk] at h
        obtain ⟨i, hi, hpath, hcases⟩ :=
          ih (next_index c p) out (next_index_lt c p (by omega)) h
        have hip : i ≠ p := by
          rcases hcases with ⟨v0, hq, _⟩ | ⟨hq, _⟩ <;> intro hh <;> rw [hh, hgd] at hq
          · injection hq with hq'
            have hkk : kp = k := congrArg Prod.fst hq'
            exact hk hkk
          · cases hq
        refine ⟨i, hi, ?_, hcases⟩
        intro j hj hlt
        by_cases hjp : j = p
        · exact ⟨kp, vp, hjp ▸ hgd, hk⟩
        · have hd1 := pdist_next c p j hp hj (fun hh => hjp hh.symm)
          have hd2 := pdist_next c p i hp hi (fun hh => hip hh.symm)
          have hnz : pdist c p j ≠ 0 := fun h0 => hjp (pdist_eq_zero c p j hp hj h0).symm
          exact hpath j hj (by omega)

lemma set_entry_loop_isSome (e : List Slot) (c : Nat) (k : Key) (v : Value)
    (u s : Bool) (l : Nat) (i : Nat) (hi : i < c) (hempty : e.getD i none = none) :
    ∀ fuel p, p < c → pdist c p i < fuel →
      set_entry_loop s e c k v u l fuel p ≠ none := by
  intro fuel
  induction fuel with
  | zero => intro p hp hf; omega
  | succ f ih =>
    intro p hp hf
    rcases hgd : e.getD p none with _ | ⟨kp, vp⟩
    · simp only [set_entry_loop, hgd]
      cases u <;> cases s <;> simp
    · have hpi : p ≠ i := by intro hh; rw [hh, hempty] at hgd; cases hgd
      simp only [set_entry_loop, hgd]
      by_cases hk : kp = k
      · rw [if_pos hk]; simp
      · rw [if_neg hk]
        have hd := pdist_next c p i hp hi hpi
        exact ih (next_index c p) (next_index_lt c p (by omega)) (by omega)

/-! ## Preservation of the invariants by one placement -/

lemma chainInv_set (e : List Slot) (c : Nat) (k : Key) (v : Value) (i : Nat)
    (hch : ChainInv e c) (hi : i < c) (hilen : i < e.length)
    (hpath : PathClear e c k (home c k) i) :
    ChainInv (e.set i (some (k, v))) c := by
  intro a ha j hj hsome hlt
  by_cases hai : a = i
  · subst hai
    rw [getD_set_eq e a _ hilen] at hlt
    by_cases hji : j = a
    · subst hji; simp at hlt
    · rw [getD_set_ne e a j _ (fun hh => hji hh.symm)]
      obtain ⟨kj, vj, hj2, _⟩ := hpath j hj (by simpa [keyOf] using hlt)
      rw [hj2]; rfl
  · rw [getD_set_ne e i a _ (fun hh => hai hh.symm)] at hsome hlt
    by_cases hji : j = i
    · subst hji; rw [getD_set_eq e j _ hilen]; rfl
    · rw [getD_set_ne e i j _ (fun hh => hji hh.symm)]
      exact hch a ha j hj hsome hlt

lemma keysDistinct_set_update (e : List Slot) (c : Nat) (k : Key) (v v0 : Value)
    (i : Nat) (hd : KeysDistinct e c) (hi : i < c)
    (hslot : e.getD i none = some (k, v0)) :
    KeysDistinct (e.set i (some (k, v))) c := by
  have hilen := lt_length_of_getD_some e i _ hslot
  have htr : ∀ m, m < c → ((e.set i (some (k, v))).getD m none).isSome = true →
      (e.getD m none).isSome = true ∧
        keyOf ((e.set i (some (k, v))).getD m none) = keyOf (e.getD m none) := by
    intro m hm hsm
    by_cases hmi : m = i
    · subst hmi
      rw [getD_set_eq e m _ hilen, hslot]
      exact ⟨rfl, rfl⟩
    · rw [getD_set_ne e i m _ (fun hh => hmi hh.symm)] at hsm ⊢
      exact ⟨hsm, rfl⟩
  intro a ha b hb hsa hsb heq
  obtain ⟨hsa', hka⟩ := htr a ha hsa
  obtain ⟨hsb', hkb⟩ := htr b hb hsb
  exact hd a ha b hb hsa' hsb' (by rw [← hka, ← hkb]; exact heq)

lemma keysDistinct_set_insert (e : List Slot) (c : Nat) (k : Key) (v : Value)
    (i : Nat) (hd : KeysDistinct e c) (hi : i < c) (hilen : i < e.length)
    (hempty : e.getD i none = none)
    (habs : ∀ m, m < c → ∀ vm, e.getD m none ≠ some (k, vm)) :
    KeysDistinct (e.set i (some (k, v))) c := by
  intro a ha b hb hsa hsb heq
  by_cases hai : a = i <;> by_cases hbi : b = i
  · rw [hai, hbi]
  · exfalso
    subst hai
    rw [getD_set_eq e a _ hilen] at heq
    rw [getD_set_ne e a b _ (fun hh => hbi hh.symm)] at hsb heq
    obtain ⟨⟨kb, vb⟩, hgb⟩ := Option.isSome_iff_exists.mp hsb
    rw [hgb] at heq
    exact habs b hb vb (by rw [hgb, show kb = k from (by simpa [keyOf] using heq.symm)])
  · exfalso
    subst hbi
    rw [getD_set_eq e b _ hilen] at heq
    rw [getD_set_ne e b a _ (fun hh => hai hh.symm)] at hsa heq
    obtain ⟨⟨ka, va⟩, hga⟩ := Option.isSome_iff_exists.mp hsa
    rw [hga] at heq
    exact habs a ha va (by rw [hga, show ka = k from (by simpa [keyOf] using heq)])
  · rw [getD_set_ne e i a _ (fun hh => hai hh.symm)] at hsa heq
    rw [getD_set_ne e i b _ (fun hh => hbi hh.symm)] at hsb heq
    exact hd a ha b hb hsa hsb heq

lemma key_absent_of_empty (e : List Slot) (c : Nat) (k : Key) (i : Nat)
    (hc0 : 0 < c) (hch : ChainInv e c) (hi : i < c)
    (hempty : e.getD i none = none) (hpath : PathClear e c k (home c k) i) :
    ∀ m, m < c → ∀ vm, e.getD m none ≠ some (k, vm) := by
  intro m hm vm hgd
  have hh := home_lt c k hc0
  rcases Nat.lt_trichotomy (pdist c (home c k) m) (pdist c (home c k) i) with h1 | h2 | h3
  · obtain ⟨km, _, hgd', hne⟩ := hpath m hm h1
    rw [hgd] at hgd'
    injection hgd' with hq
    have hkk : k = km := congrArg Prod.fst hq
    exact hne hkk.symm
  · have := pdist_right_inj c (home c k) m i hh hm hi h2
    rw [this, hempty] at hgd
    cases hgd
  · have hsome : (e.getD m none).isSome = true := by rw [hgd]; rfl
    have := hch m hm i hi hsome (by rw [hgd]; simpa [keyOf] using h3)
    rw [hempty] at this
    cases this

/-! ## Lookup correctness in a well-formed table -/

lemma cap_pos_of_pow (c : Nat) (hpow : ∃ j, j < 64 ∧ c = 2 ^ j) : 0 < c := by
  obtain ⟨j, _, hj⟩ := hpow
  rw [hj]
  exact Nat.pos_pow_of_pos j (by norm_num)

lemma pathClear_of_wf (e : List Slot) (c : Nat) (k : Key) (v : Value) (i : Nat)
    (hch : ChainInv e c) (hkd : KeysDistinct e c) (hi : i < c)
    (hgd : e.getD i none = some (k, v)) :
    PathClear e c k (home c k) i := by
  intro j hj hlt
  have hsome : (e.getD i none).isSome = true := by rw [hgd]; rfl
  have hjs := hch i hi j hj hsome (by rw [hgd]; simpa [keyOf] using hlt)
  obtain ⟨⟨kj, vj⟩, hgj⟩ := Option.isSome_iff_exists.mp hjs
  refine ⟨kj, vj, hgj, fun hkk => ?_⟩
  have : j = i := hkd j hj i hi hjs hsome (by rw [hgj, hgd]; simpa [keyOf] using hkk)
  subst this
  omega

lemma get_found_of_wf (t : hashtable) (hwf : WF t) (k : Key) (v : Value)
    (hpair : PairAt t.entries t.capacity k v) :
    hashtable_get t k = .found v := by
  obtain ⟨hlen, hpow, hcnt, hload, hch, hkd⟩ := hwf
  obtain ⟨i, hi, hgd⟩ := hpair
  have hc0 : 0 < t.capacity := cap_pos_of_pow t.capacity hpow
  have hpath := pathClear_of_wf t.entries t.capacity k v i hch hkd hi hgd
  exact get_loop_found t.entries t.capacity k v i hi hgd t.capacity
    (home t.capacity k) (home_lt t.capacity k hc0)
    (pdist_lt t.capacity (home t.capacity k) i (home_lt t.capacity k hc0) hi) hpath

/-! ## Effect of one placement on the stored pairs -/

lemma pairAt_set_insert_iff (e : List Slot) (c : Nat) (k0 : Key) (v0 : Value)
    (i : Nat) (hi : i < c) (hilen : i < e.length)
    (hempty : e.getD i none = none) (k : Key) (v : Value) :
    PairAt (e.set i (some (k0, v0))) c k v ↔
      (PairAt e c k v ∨ (k = k0 ∧ v = v0)) := by
  constructor
  · rintro ⟨m, hm, hgd⟩
    by_cases hmi : m = i
    · rw [hmi, getD_set_eq e i _ hilen] at hgd
      injection hgd with h
      exact Or.inr ⟨(congrArg Prod.fst h).symm, (congrArg Prod.snd h).symm⟩
    · rw [getD_set_ne e i m _ (fun hh => hmi hh.symm)] at hgd
      exact Or.inl ⟨m, hm, hgd⟩
  · rintro (⟨m, hm, hgd⟩ | ⟨hk, hv⟩)
    · have hmi : m ≠ i := fun hh => by rw [hh, hempty] at hgd; cases hgd
      exact ⟨m, hm, by rw [getD_set_ne e i m _ (fun hh => hmi hh.symm)]; exact hgd⟩
    · subst hk; subst hv
      exact ⟨i, hi, getD_set_eq e i _ hilen⟩

lemma pairAt_update_other (e : List Slot) (c : Nat) (k0 : Key) (vNew vOld : Value)
    (i : Nat) (hslot : e.getD i none = some (k0, vOld)) (k : Key) (v : Value)
    (hk : k ≠ k0) :
    PairAt (e.set i (some (k0, vNew))) c k v ↔ PairAt e c k v := by
  have hilen := lt_length_of_getD_some e i _ hslot
  constructor
  · rintro ⟨m, hm, hgd⟩
    have hmi : m ≠ i := by
      intro hh
      rw [hh, getD_set_eq e i _ hilen] at hgd
      injection hgd with h
      exact hk ((congrArg Prod.fst h).symm)
    rw [getD_set_ne e i m _ (fun hh => hmi hh.symm)] at hgd
    exact ⟨m, hm, hgd⟩
  · rintro ⟨m, hm, hgd⟩
    have hmi : m ≠ i := by
      intro hh
      rw [hh, hslot] at hgd
      injection hgd with h
      exact hk ((congrArg Prod.fst h).symm)
    exact ⟨m, hm, by rw [getD_set_ne e i m _ (fun hh => hmi hh.symm)]; exact hgd⟩

/-! ## Growth: reinsertion preserves the pairs and the invariants -/

/-- Pairwise distinctness of the keys of the occupied slots of a list,
in the form consumed by the reinsertion induction. -/
def OldKeysDistinct (l : List Slot) : Prop :=
  l.Pairwise (fun a b => ∀ ka va kb vb, a = some (ka, va) → b = some (kb, vb) → ka ≠ kb)

lemma oldKeysDistinct_of_keysDistinct (e : List Slot) (c : Nat)
    (hlen : e.length = c) (hkd : KeysDistinct e c) : OldKeysDistinct e := by
  rw [OldKeysDistinct, List.pairwise_iff_getElem]
  intro i j hi hj hij ka va kb vb ha hb
  intro hkk
  have hgi : e.getD i none = some (ka, va) := by rw [List.getD_eq_getElem e none hi, ha]
  have hgj : e.getD j none = some (kb, vb) := by rw [List.getD_eq_getElem e none hj, hb]
  have : i = j := by
    apply hkd i (by omega) j (by omega) (by rw [hgi]; rfl) (by rw [hgj]; rfl)
    rw [hgi, hgj]
    simpa [keyOf] using hkk
  omega

lemma expand_loop_spec (c : Nat) (hc : 0 < c) :
    ∀ (old acc : List Slot), acc.length = c → ChainInv acc c → KeysDistinct acc c →
      occ acc + occ old < c →
      (∀ k v1, some (k, v1) ∈ old → ∀ m, m < c → ∀ vm,
        acc.getD m none ≠ some (k, vm)) →
      OldKeysDistinct old →
      ∃ res, expand_loop c old acc = some res ∧ res.length = c ∧ ChainInv res c ∧
        KeysDistinct res c ∧ occ res = occ acc + occ old ∧
        (∀ k v, PairAt res c k v ↔ (PairAt acc c k v ∨ some (k, v) ∈ old)) := by
  intro old
  induction old with
  | nil =>
    intro acc hlen hch hkd hocc hdisj hold
    exact ⟨acc, rfl, hlen, hch, hkd, by simp [occ], fun k v => by simp⟩
  | cons hd rest ih =>
    intro acc hlen hch hkd hocc hdisj hold
    cases hd with
    | none =>
      have hocc' : occ acc + occ rest < c := by
        have := occ_cons (none : Slot) rest
        simp at this
        omega
      obtain ⟨res, hrun, hrlen, hrch, hrkd, hrocc, hrpair⟩ :=
        ih acc hlen hch hkd hocc'
          (fun k v1 hm => hdisj k v1 (List.mem_cons_of_mem _ hm))
          ((List.pairwise_cons.mp hold).2)
      refine ⟨res, by simpa [expand_loop] using hrun, hrlen, hrch, hrkd, ?_, ?_⟩
      · rw [hrocc]
        have := occ_cons (none : Slot) rest
        simp at this
        omega
      · intro k v
        rw [hrpair k v]
        simp
    | some kv =>
      obtain ⟨k0, v0⟩ := kv
      have hocccons := occ_cons (some (k0, v0)) rest
      simp at hocccons
      have hocc0 : occ acc < c := by omega
      obtain ⟨iE, hiE, hemptyE⟩ := exists_empty_slot acc c hlen hocc0
      have hne : set_entry_loop true acc c k0 v0 false 0 c (hash_key k0 &&& (c - 1)) ≠ none :=
        set_entry_loop_isSome acc c k0 v0 false true 0 iE hiE hemptyE c
          (hash_key k0 &&& (c - 1)) (home_lt c k0 hc)
          (pdist_lt c (hash_key k0 &&& (c - 1)) iE (home_lt c k0 hc) hiE)
      obtain ⟨out, hout⟩ := Option.ne_none_iff_exists'.mp hne
      obtain ⟨i, hi, hpath, hcases⟩ :=
        set_entry_loop_spec acc c k0 v0 false true 0 c (hash_key k0 &&& (c - 1))
          out (home_lt c k0 hc) hout
      have hk0abs : ∀ m, m < c → ∀ vm, acc.getD m none ≠ some (k0, vm) :=
        fun m hm vm => hdisj k0 v0 (List.mem_cons_self _ _) m hm vm
      rcases hcases with ⟨vq, hq, _⟩ | ⟨hemp, hrest⟩
      · exact absurd hq (hk0abs i hi vq)
      rcases hrest with ⟨hout_eq, _⟩ | ⟨hfalse, _⟩
      on_goal 2 => cases hfalse
      have hilen : i < acc.length := by rw [hlen]; exact hi
      have hlen' : (acc.set i (some (k0, v0))).length = c := by
        rw [List.length_set]; exact hlen
      have hch' : ChainInv (acc.set i (some (k0, v0))) c :=
        chainInv_set acc c k0 v0 i hch hi hilen hpath
      have hkd' : KeysDistinct (acc.set i (some (k0, v0))) c :=
        keysDistinct_set_insert acc c k0 v0 i hkd hi hilen hemp hk0abs
      have hocc1 : occ (acc.set i (some (k0, v0))) = occ acc + 1 :=
        occ_set_insert acc i _ hilen hemp
      have hdisj' : ∀ k v1, some (k, v1) ∈ rest → ∀ m, m < c → ∀ vm,
          (acc.set i (some (k0, v0))).getD m none ≠ some (k, vm) := by
        intro k v1 hmem m hm vm hgd
        by_cases hmi : m = i
        · rw [hmi, getD_set_eq acc i _ hilen] at hgd
          injection hgd with h
          have hk0k : k0 = k := congrArg Prod.fst h
          exact ((List.pairwise_cons.mp hold).1 (some (k, v1)) hmem k0 v0 k v1 rfl rfl) hk0k
        · rw [getD_set_ne acc i m _ (fun hh => hmi hh.symm)] at hgd
          exact hdisj k v1 (List.mem_cons_of_mem _ hmem) m hm vm hgd
      have hocc2 : occ (acc.set i (some (k0, v0))) + occ rest < c := by
        rw [hocc1]; omega
      obtain ⟨res, hrun, hrlen, hrch, hrkd, hrocc, hrpair⟩ :=
        ih (acc.set i (some (k0, v0))) hlen' hch' hkd' hocc2 hdisj'
          ((List.pairwise_cons.mp hold).2)
      refine ⟨res, ?_, hrlen, hrch, hrkd, ?_, ?_⟩
      · simp only [expand_loop, hashtable_set_entry, hout]
        have hent : out.entries = acc.set i (some (k0, v0)) := by rw [hout_eq]
        rw [hent]
        exact hrun
      · rw [hrocc, hocc1]; omega
      · intro k v
        rw [hrpair k v,
          pairAt_set_insert_iff acc c k0 v0 i hi hilen hemp k v]
        simp only [List.mem_cons]
        constructor
        · rintro ((h | ⟨hk, hv⟩) | h)
          · exact Or.inl h
          · exact Or.inr (Or.inl (by rw [hk, hv]))
          · exact Or.inr (Or.inr h)
        · rintro (h | (h | h))
          · exact Or.inl (Or.inl h)
          · injection h with h'
            exact Or.inl (Or.inr ⟨congrArg Prod.fst h', congrArg Prod.snd h'⟩)
          · exact Or.inr h

lemma expand_false_eq (t : hashtable) (ca : Bool) (t1 : hashtable)
    (h : hashtable_expand ca t = some (false, t1)) : t1 = t := by
  unfold hashtable_expand at h
  split at h
  · injection h with h'
    exact (congrArg Prod.snd h').symm
  · split at h
    · injection h with h'
      exact (congrArg Prod.snd h').symm
    · split at h
      · cases h
      · injection h with h'
        have hb : true = false := congrArg Prod.fst h'
        cases hb

lemma expand_wf (t : hashtable) (ca : Bool) (t' : hashtable) (hwf : WF t)
    (hexp : hashtable_expand ca t = some (true, t')) :
    WF t' ∧ t'.length = t.length ∧ t'.capacity = t.capacity * 2 ∧
      (∀ k v, PairAt t'.entries t'.capacity k v ↔ PairAt t.entries t.capacity k v) := by
  obtain ⟨hlen, hpow, hcnt, hload, hch, hkd⟩ := hwf
  have hc0 : 0 < t.capacity := cap_pos_of_pow t.capacity hpow
  obtain ⟨j, hj64, hcapj⟩ := hpow
  set c := t.capacity with hc
  -- the no-overflow branch must have been taken
  unfold hashtable_expand at hexp
  split at hexp
  · injection hexp with h'
    exact absurd (congrArg Prod.fst h') (by simp)
  · rename_i hnov
    split at hexp
    · injection hexp with h'
      exact absurd (congrArg Prod.fst h') (by simp)
    · -- no overflow and calloc succeeded
      have hj63 : j < 63 := by
        by_contra hge
        have hceq : t.capacity = 2 ^ 63 := by
          show c = 2 ^ 63
          rw [hcapj]
          congr 1
          omega
        rw [hceq] at hnov
        exact hnov (by norm_num [U64])
      have hclt : c < 2 ^ 63 := by
        have : (2 : Nat) ^ j < 2 ^ 63 := Nat.pow_lt_pow_right (by norm_num) hj63
        omega
      have hnc : c * 2 % U64 = c * 2 := Nat.mod_eq_of_lt (by unfold U64; omega)
      rw [hnc] at hexp
      have hc2 : 0 < c * 2 := by omega
      obtain ⟨res, hrun, hrlen, hrch, hrkd, hrocc, hrpair⟩ :=
        expand_loop_spec (c * 2) hc2 t.entries (List.replicate (c * 2) none)
          (by simp)
          (by intro i hi j hj hsome; rw [getD_replicate] at hsome; cases hsome)
          (by intro i hi j hj hsome; rw [getD_replicate] at hsome; cases hsome)
          (by rw [occ_replicate]; omega)
          (by intro k v1 hm m hmc vm; rw [getD_replicate]; simp)
          (oldKeysDistinct_of_keysDistinct t.entries c hlen hkd)
      rw [hrun] at hexp
      injection hexp with h'
      injection h' with hb ht'
      subst ht'
      -- the capacity is an exact double, hence still a power of two within range
      have hj : ∃ j2, j2 < 64 ∧ c * 2 = 2 ^ j2 := by
        refine ⟨j + 1, by omega, ?_⟩
        rw [pow_succ, ← hcapj]
      have hoccold : occ t.entries = t.length := hcnt.symm
      refine ⟨⟨hrlen, hj, ?_, ?_, hrch, hrkd⟩, rfl, rfl, ?_⟩
      · show t.length = occ res
        rw [hrocc, occ_replicate, hoccold]
        omega
      · show t.length ≤ c * 2 / 2
        omega
      · intro k v
        show PairAt res (c * 2) k v ↔ _
        rw [hrpair k v, pairAt_iff_mem t.entries c hlen k v]
        constructor
        · rintro (⟨m, hm, hgd⟩ | h)
          · rw [getD_replicate] at hgd; cases hgd
          · exact h
        · exact fun h => Or.inr h

lemma set_spec (t : hashtable) (ca sa : Bool) (k : Key) (v : Value)
    (r : SetResult) (t' : hashtable) (hwf : WF t)
    (hset : hashtable_set ca sa t k (some v) = some (r, t')) :
    WF t' ∧
    ((r = .oom ∧ t'.length = t.length ∧
        (t'.capacity = t.capacity ∨ t'.capacity = t.capacity * 2) ∧
        (∀ k2 v2, PairAt t'.entries t'.capacity k2 v2 ↔
          PairAt t.entries t.capacity k2 v2)) ∨
     (r = .ok k ∧ PairAt t'.entries t'.capacity k v ∧
        hashtable_get t' k = .found v ∧
        (∀ k2 v2, k2 ≠ k → (PairAt t'.entries t'.capacity k2 v2 ↔
          PairAt t.entries t.capacity k2 v2)) ∧
        (((∃ v0, PairAt t.entries t.capacity k v0) ∧ t'.length = t.length) ∨
         ((¬ ∃ v0, PairAt t.entries t.capacity k v0) ∧
           t'.length = t.length + 1)))) := by
  have hc0 : 0 < t.capacity := cap_pos_of_pow t.capacity (hwf.2.1)
  simp only [hashtable_set] at hset
  split at hset
  · cases hset
  · -- growth stage returned false: the whole set fails with the table unchanged
    rename_i t1 heq
    split at heq
    · -- growth was triggered and failed
      have ht1 : t1 = t := expand_false_eq t ca t1 heq
      subst ht1
      injection hset with h'
      injection h' with hr ht'
      subst ht'
      exact ⟨hwf, Or.inl ⟨hr.symm, rfl, Or.inl rfl, fun k2 v2 => Iff.rfl⟩⟩
    · -- growth was not triggered: some (true, t) = some (false, t1), impossible
      injection heq with h'
      have hb : true = false := congrArg Prod.fst h'
      cases hb
  · -- growth stage returned true with table t1
    rename_i t1 heq
    have hbridge : WF t1 ∧ t1.length = t.length ∧
        (t1.capacity = t.capacity ∨ t1.capacity = t.capacity * 2) ∧
        (∀ k2 v2, PairAt t1.entries t1.capacity k2 v2 ↔
          PairAt t.entries t.capacity k2 v2) ∧
        t1.length + 1 ≤ t1.capacity / 2 := by
      split at heq
      · rename_i htrig
        obtain ⟨hwf1, hl1, hcap1, hpair1⟩ := expand_wf t ca t1 hwf heq
        refine ⟨hwf1, hl1, Or.inr hcap1, hpair1, ?_⟩
        have := hwf.2.2.2.1
        omega
      · rename_i htrig
        injection heq with h'
        have ht1 : t1 = t := (congrArg Prod.snd h').symm
        subst ht1
        refine ⟨hwf, rfl, Or.inl rfl, fun k2 v2 => Iff.rfl, ?_⟩
        have := hwf.2.2.2.1
        omega
    obtain ⟨hwf1, hl1, hcap1, hpair1, harith⟩ := hbridge
    obtain ⟨hlen1, hpow1, hcnt1, hload1, hch1, hkd1⟩ := hwf1
    have hc1 : 0 < t1.capacity := cap_pos_of_pow t1.capacity hpow1
    split at hset
    · cases hset
    · rename_i out hout
      unfold hashtable_set_entry at hout
      obtain ⟨i, hi, hpath, hcases⟩ :=
        set_entry_loop_spec t1.entries t1.capacity k v true sa t1.length
          t1.capacity (hash_key k &&& (t1.capacity - 1)) out
          (home_lt t1.capacity k hc1) hout
      have hilen : i < t1.entries.length := by rw [hlen1]; exact hi
      split at hset
      · -- out.ret = none: the strdup of the key failed
        rename_i hret
        rcases hcases with ⟨v0, hq, hout_eq⟩ | ⟨hemp, hrest⟩
        · rw [hout_eq] at hret; cases hret
        rcases hrest with ⟨hout_eq, _⟩ | ⟨_, hsa, hout_eq⟩
        · rw [hout_eq] at hret; cases hret
        injection hset with h'
        injection h' with hr ht'
        subst ht'
        rw [hout_eq]
        refine ⟨⟨by exact hlen1, hpow1, by exact hcnt1, hload1, hch1, hkd1⟩,
          Or.inl ⟨hr.symm, ?_, ?_, ?_⟩⟩
        · show t1.length = t.length
          exact hl1
        · show t1.capacity = t.capacity ∨ t1.capacity = t.capacity * 2
          exact hcap1
        · intro k2 v2
          show PairAt t1.entries t1.capacity k2 v2 ↔ _
          exact hpair1 k2 v2
      · -- out.ret = some dk: the set succeeded
        rename_i dk hret
        injection hset with h'
        injection h' with hr ht'
        subst ht'
        rcases hcases with ⟨v0, hq, hout_eq⟩ | ⟨hemp, hrest⟩
        · -- existing key: overwrite in place
          have hdk : k = dk := by rw [hout_eq] at hret; exact Option.some.inj hret
          subst hdk
          rw [hout_eq]
          have hwf' : WF ⟨t1.entries.set i (some (k, v)), t1.capacity, t1.length⟩ := by
            refine ⟨?_, hpow1, ?_, hload1, ?_, ?_⟩
            · show (t1.entries.set i (some (k, v))).length = t1.capacity
              rw [List.length_set]; exact hlen1
            · show t1.length = occ (t1.entries.set i (some (k, v)))
              rw [occ_set_update t1.entries i (k, v) (k, v0) hq]; exact hcnt1
            · exact chainInv_set t1.entries t1.capacity k v i hch1 hi hilen hpath
            · exact keysDistinct_set_update t1.entries t1.capacity k v v0 i hkd1 hi hq
          have hpairAt : PairAt (t1.entries.set i (some (k, v))) t1.capacity k v :=
            ⟨i, hi, getD_set_eq t1.entries i _ hilen⟩
          refine ⟨hwf', Or.inr ⟨hr.symm, hpairAt, ?_, ?_, Or.inl ⟨⟨v0, (hpair1 k v0).mp ⟨i, hi, hq⟩⟩, hl1⟩⟩⟩
          · exact get_found_of_wf _ hwf' k v hpairAt
          · intro k2 v2 hk2
            show PairAt (t1.entries.set i (some (k, v))) t1.capacity k2 v2 ↔ _
            rw [pairAt_update_other t1.entries t1.capacity k v v0 i hq k2 v2 hk2]
            exact hpair1 k2 v2
        · -- fresh key: insert into the empty slot
          rcases hrest with ⟨hout_eq, _⟩ | ⟨_, _, hout_eq⟩
          swap
          · rw [hout_eq] at hret; cases hret
          have hdk : k = dk := by rw [hout_eq] at hret; exact Option.some.inj hret
          subst hdk
          rw [hout_eq]
          simp only [if_true]
          have habs : ∀ m, m < t1.capacity → ∀ vm,
              t1.entries.getD m none ≠ some (k, vm) :=
            key_absent_of_empty t1.entries t1.capacity k i hc1 hch1 hi hemp hpath
          have hwf' : WF ⟨t1.entries.set i (some (k, v)), t1.capacity, t1.length + 1⟩ := by
            refine ⟨?_, hpow1, ?_, harith, ?_, ?_⟩
            · show (t1.entries.set i (some (k, v))).length = t1.capacity
              rw [List.length_set]; exact hlen1
            · show t1.length + 1 = occ (t1.entries.set i (some (k, v)))
              rw [occ_set_insert t1.entries i (k, v) hilen hemp]; rw [hcnt1]
            · exact chainInv_set t1.entries t1.capacity k v i hch1 hi hilen hpath
            · exact keysDistinct_set_insert t1.entries t1.capacity k v i hkd1 hi hilen hemp habs
          have hpairAt : PairAt (t1.entries.set i (some (k, v))) t1.capacity k v :=
            ⟨i, hi, getD_set_eq t1.entries i _ hilen⟩
          refine ⟨hwf', Or.inr ⟨hr.symm, hpairAt, ?_, ?_, Or.inr ⟨?_, by omega⟩⟩⟩
          · exact get_found_of_wf _ hwf' k v hpairAt
          · intro k2 v2 hk2
            show PairAt (t1.entries.set i (some (k, v))) t1.capacity k2 v2 ↔ _
            rw [pairAt_set_insert_iff t1.entries t1.capacity k v i hi hilen hemp k2 v2]
            constructor
            · rintro (h | ⟨hk, _⟩)
              · exact (hpair1 k2 v2).mp h
              · exact absurd hk hk2
            · exact fun h => Or.inl ((hpair1 k2 v2).mpr h)
          · rintro ⟨v0, hp⟩
            obtain ⟨m, hm, hgd⟩ := (hpair1 k v0).mpr hp
            exact habs m hm v0 hgd

instance (e : List Slot) (c : Nat) : Decidable (ChainInv e c) := by
  unfold ChainInv; infer_instance

instance (e : List Slot) (c : Nat) : Decidable (KeysDistinct e c) := by
  unfold KeysDistinct; infer_instance

instance (e : List Slot) (c : Nat) (k : Key) (v : Value) : Decidable (PairAt e c k v) := by
  unfold PairAt; infer_instance

instance (t : hashtable) : Decidable (WF t) := by
  unfold WF; infer_instance

lemma WF_set (t : hashtable) (ca sa : Bool) (k : Key) (v : Option Value)
    (r : SetResult) (t' : hashtable) (hwf : WF t)
    (hset : hashtable_set ca sa t k v = some (r, t')) : WF t' := by
  cases v with
  | none =>
    simp only [hashtable_set] at hset
    injection hset with h'
    have ht : t = t' := congrArg Prod.snd h'
    exact ht ▸ hwf
  | some v => exact (set_spec t ca sa k v r t' hwf hset).1

lemma create_eq : hashtable_create true true =
    some ⟨List.replicate INITIAL_CAPACITY none, INITIAL_CAPACITY, 0⟩ := rfl

lemma reachable_wf (t : hashtable) (hr : Reachable t) : WF t := by
  induction hr with
  | created t hc =>
    rw [create_eq] at hc
    injection hc with h'
    rw [← h']
    decide
  | stepped t ca sa k v r t' hrt hset ih => exact WF_set t ca sa k v r t' ih hset

/-! ## Iterator lemmas -/

lemma next_loop_none (e : List Slot) (c : Nat) (hlen : e.length = c) :
    ∀ fuel idx, fuel = c - idx → next_loop e c fuel idx = none →
      (e.drop idx).filterMap id = [] := by
  intro fuel
  induction fuel with
  | zero =>
    intro idx hf _
    have : e.length ≤ idx := by omega
    rw [List.drop_eq_nil_of_le this]
    rfl
  | succ f ih =>
    intro idx hf h
    have hidx : idx < c := by omega
    rcases hgd : e.getD idx none with _ | ⟨kp, vp⟩
    · simp only [next_loop, if_pos hidx, hgd] at h
      have hrec := ih (idx + 1) (by omega) h
      have hdrop : e.drop idx = none :: e.drop (idx + 1) := by
        rw [List.drop_eq_getElem_cons (by omega)]
        rw [List.getD_eq_getElem e none (by omega)] at hgd
        rw [hgd]
      rw [hdrop]
      simpa using hrec
    · simp only [next_loop, if_pos hidx, hgd] at h
      cases h

lemma next_loop_some (e : List Slot) (c : Nat) (hlen : e.length = c) :
    ∀ fuel idx i k v, fuel = c - idx → next_loop e c fuel idx = some (i, k, v) →
      ∃ m, i = m + 1 ∧ idx ≤ m ∧ m < c ∧ e.getD m none = some (k, v) ∧
        (e.drop idx).filterMap id = (k, v) :: (e.drop (m + 1)).filterMap id := by
  intro fuel
  induction fuel with
  | zero => intro idx i k v hf h; cases h
  | succ f ih =>
    intro idx i k v hf h
    have hidx : idx < c := by omega
    rcases hgd : e.getD idx none with _ | ⟨kp, vp⟩
    · simp only [next_loop, if_pos hidx, hgd] at h
      obtain ⟨m, him, hidxm, hmc, hgdm, hfm⟩ := ih (idx + 1) i k v (by omega) h
      refine ⟨m, him, by omega, hmc, hgdm, ?_⟩
      have hdrop : e.drop idx = none :: e.drop (idx + 1) := by
        rw [List.drop_eq_getElem_cons (by omega)]
        rw [List.getD_eq_getElem e none (by omega)] at hgd
        rw [hgd]
      rw [hdrop]
      simpa using hfm
    · simp only [next_loop, if_pos hidx, hgd] at h
      injection h with h1
      injection h1 with h2 h3
      injection h3 with hk hv
      refine ⟨idx, h2.symm, le_refl idx, hidx, by rw [hgd, hk, hv], ?_⟩
      have hdrop : e.drop idx = some (kp, vp) :: e.drop (idx + 1) := by
        rw [List.drop_eq_getElem_cons (by omega)]
        rw [List.getD_eq_getElem e none (by omega)] at hgd
        rw [hgd]
      rw [hdrop, hk, hv]
      simp

lemma run_iter_eq (t : hashtable) (hlen : t.entries.length = t.capacity) :
    ∀ fuel idx k0 v0, t.capacity - idx ≤ fuel →
      run_iter t ⟨k0, v0, idx⟩ fuel = (t.entries.drop idx).filterMap id := by
  intro fuel
  induction fuel with
  | zero =>
    intro idx k0 v0 hf
    have : t.entries.length ≤ idx := by omega
    rw [List.drop_eq_nil_of_le this]
    rfl
  | succ f ih =>
    intro idx k0 v0 hf
    rcases hnl : next_loop t.entries t.capacity (t.capacity - idx) idx with _ | ⟨i, k, v⟩
    · have hfm := next_loop_none t.entries t.capacity hlen _ idx rfl hnl
      simp only [run_iter, hashtable_next, hnl]
      exact hfm.symm
    · obtain ⟨m, him, hidxm, hmc, _, hfm⟩ :=
        next_loop_some t.entries t.capacity hlen _ idx i k v rfl hnl
      simp only [run_iter, hashtable_next, hnl]
      rw [hfm, him]
      have hrec := ih (m + 1) (some k) (some v) (by omega)
      simp only [Option.getD_some]
      rw [hrec]

lemma next_done_stays (t : hashtable) (it it' : hashtablei)
    (h : hashtable_next t it = (false, it')) : hashtable_next t it' = (false, it') := by
  unfold hashtable_next at h ⊢
  rcases hnl : next_loop t.entries t.capacity (t.capacity - it.idx) it.idx with _ | p
  · rw [hnl] at h
    injection h with h1 h2
    rw [← h2]
    have hz : t.capacity - max it.idx t.capacity = 0 :=
      Nat.sub_eq_zero_of_le (Nat.le_max_right _ _)
    rw [hz]
    simp only [next_loop]
    rw [Nat.max_assoc, Nat.max_self]
  · rw [hnl] at h
    injection h with h1 _
    cases h1

/-! ## The claims -/

/-- C1: for every (well-formed) table `t`, key `k` and non-null value `v`, if
`set(t, k, v)` succeeds (returns a durable key instead of NULL) then an
immediately following `get(t, k)` returns exactly `v`. -/
theorem C1_set_get_round_trip (t t' : hashtable) (k : Key) (v : Value) (dk : Key)
    (hwf : WF t)
    (hset : hashtable_set true true t k (some v) = some (.ok dk, t')) :
    hashtable_get t' k = .found v := by
  obtain ⟨_, h⟩ := set_spec t true true k v (.ok dk) t' hwf hset
  rcases h with ⟨hcon, _⟩ | ⟨_, _, hget, _⟩
  · cases hcon
  · exact hget

/-- C1 witness: inserting key "a" (byte 97) with value 7 into the freshly
created table and reading it back. -/
theorem C1_witness :
    hashtable_get ⟨[some ([97], 7), none], 2, 1⟩ [97] = .found 7 :=
  C1_set_get_round_trip ⟨[none], 1, 0⟩ ⟨[some ([97], 7), none], 2, 1⟩
    [97] 7 [97] (by decide) (by decide)

/-- C2 counterexample: the claim "after a failed set the table's capacity is
exactly as it was before the call" is false.  On the (reachable, well-formed)
table of capacity 2 holding key "a", a set of key "b" whose growth `calloc`
succeeds but whose key-copy `strdup` fails returns the NULL/oom result, yet
leaves the table with capacity 4: growth had already been committed. -/
theorem C2_counterexample :
    WF ⟨[some ([97], 7), none], 2, 1⟩ ∧
    hashtable_set true false ⟨[some ([97], 7), none], 2, 1⟩ [98] (some 20) =
      some (.oom, ⟨[some ([97], 7), none, none, none], 4, 1⟩) ∧
    (⟨[some ([97], 7), none], 2, 1⟩ : hashtable).capacity = 2 ∧
    (⟨[some ([97], 7), none, none, none], 4, 1⟩ : hashtable).capacity = 4 := by
  refine ⟨by decide, by decide, rfl, rfl⟩

/-- C2 (amended): whenever `set(t, k, v)` fails with an allocation error, the
error is propagated with no loss of data: the table's length and its stored
(key, value) pairs are exactly as they were before the call; the capacity is
unchanged unless the failure was the key-copy allocation after an already
successful growth, in which case the capacity has doubled (and the entries
have been rehashed). -/
theorem C2_amended_alloc_failure (t t' : hashtable) (ca sa : Bool) (k : Key)
    (v : Value) (hwf : WF t)
    (hset : hashtable_set ca sa t k (some v) = some (.oom, t')) :
    t'.length = t.length ∧
    (∀ k2 v2, PairAt t'.entries t'.capacity k2 v2 ↔
      PairAt t.entries t.capacity k2 v2) ∧
    (t'.capacity = t.capacity ∨ t'.capacity = t.capacity * 2) := by
  obtain ⟨_, h⟩ := set_spec t ca sa k v .oom t' hwf hset
  rcases h with ⟨_, hlen, hcap, hpair⟩ | ⟨hok, _⟩
  · exact ⟨hlen, hpair, hcap⟩
  · cases hok

/-- C2 (amended) witness: the counterexample run, checked against the amended
claim: length and the stored pair survive the failed set. -/
theorem C2_amended_witness :
    (⟨[some ([97], 7), none, none, none], 4, 1⟩ : hashtable).length =
      (⟨[some ([97], 7), none], 2, 1⟩ : hashtable).length ∧
    (PairAt [some ([97], 7), none, none, none] 4 [97] 7 ↔
      PairAt [some ([97], 7), none] 2 [97] 7) :=
  ⟨(C2_amended_alloc_failure ⟨[some ([97], 7), none], 2, 1⟩
      ⟨[some ([97], 7), none, none, none], 4, 1⟩ true false [98] 20
      (by decide) (by decide)).1,
   (C2_amended_alloc_failure ⟨[some ([97], 7), none], 2, 1⟩
      ⟨[some ([97], 7), none, none, none], 4, 1⟩ true false [98] 20
      (by decide) (by decide)).2.1 [97] 7⟩

/-- C3: calling set with the NULL value fires `assert(value != NULL)` — a
defect signal distinct from both the allocation-failure NULL return and a
successful return — and the table is not touched. -/
theorem C3_null_value_contract (t : hashtable) (ca sa : Bool) (k : Key) :
    hashtable_set ca sa t k none = some (.assertFail, t) ∧
    SetResult.assertFail ≠ SetResult.oom ∧
    (∀ dk, SetResult.assertFail ≠ SetResult.ok dk) := by
  refine ⟨rfl, by simp, fun dk => by simp⟩

/-- C4: growth preserves the table's contents.  If growth succeeds on a
well-formed table, the length is unchanged, the stored pairs are exactly the
old ones, and every key present before remains retrievable by get with its
old value.  The conclusion `WF t'` lets the theorem be applied again to the
next growth event, so the property holds across any number of successive
growths. -/
theorem C4_growth_preserves_contents (t t' : hashtable) (ca : Bool)
    (hwf : WF t) (hexp : hashtable_expand ca t = some (true, t')) :
    t'.length = t.length ∧ WF t' ∧
    ∀ k v, (PairAt t.entries t.capacity k v ↔ PairAt t'.entries t'.capacity k v) ∧
      (PairAt t.entries t.capacity k v → hashtable_get t' k = .found v) := by
  obtain ⟨hwf', hlen, _, hpair⟩ := expand_wf t ca t' hwf hexp
  refine ⟨hlen, hwf', fun k v => ⟨(hpair k v).symm, fun hp => ?_⟩⟩
  exact get_found_of_wf t' hwf' k v ((hpair k v).mpr hp)

/-- C4 witness: growing the capacity-2 table holding ("a", 7) to capacity 4
keeps the length and the key remains retrievable. -/
theorem C4_witness :
    (⟨[some ([97], 7), none, none, none], 4, 1⟩ : hashtable).length =
      (⟨[some ([97], 7), none], 2, 1⟩ : hashtable).length ∧
    hashtable_get ⟨[some ([97], 7), none, none, none], 4, 1⟩ [97] = .found 7 :=
  ⟨(C4_growth_preserves_contents ⟨[some ([97], 7), none], 2, 1⟩
      ⟨[some ([97], 7), none, none, none], 4, 1⟩ true (by decide) (by decide)).1,
   ((C4_growth_preserves_contents ⟨[some ([97], 7), none], 2, 1⟩
      ⟨[some ([97], 7), none, none, none], 4, 1⟩ true (by decide) (by decide)).2.2
      [97] 7).2 (by decide)⟩

/-- C5: invariants I1 and I2 hold in every reachable table state: for every
table produced by create followed by any sequence of set calls (successful or
failed, with any allocation outcomes), the capacity is a power of two (hence
at least 1) and the length never exceeds half the capacity; in particular I2
holds in the freshly created table, before any insertion. -/
theorem C5_invariants_hold_reachable (t : hashtable) (hr : Reachable t) :
    (∃ j, t.capacity = 2 ^ j) ∧ t.length ≤ t.capacity / 2 := by
  obtain ⟨_, ⟨j, _, hj⟩, _, hload, _, _⟩ := reachable_wf t hr
  exact ⟨⟨j, hj⟩, hload⟩

/-- C5 witness: the freshly created table. -/
theorem C5_witness :
    (∃ j, (⟨[none], 1, 0⟩ : hashtable).capacity = 2 ^ j) ∧
    (⟨[none], 1, 0⟩ : hashtable).length ≤ (⟨[none], 1, 0⟩ : hashtable).capacity / 2 :=
  C5_invariants_hold_reachable ⟨[none], 1, 0⟩ (Reachable.created _ rfl)

/-- C6: overwrite.  After two successful sets of the same key with values v1
then v2, get returns v2, and the second set leaves the length unchanged (the
existing slot's value is updated without incrementing the count). -/
theorem C6_overwrite (t t1 t2 : hashtable) (k : Key) (v1 v2 : Value)
    (d1 d2 : Key) (hwf : WF t)
    (h1 : hashtable_set true true t k (some v1) = some (.ok d1, t1))
    (h2 : hashtable_set true true t1 k (some v2) = some (.ok d2, t2)) :
    hashtable_get t2 k = .found v2 ∧ t2.length = t1.length := by
  obtain ⟨hwf1, hc1⟩ := set_spec t true true k v1 (.ok d1) t1 hwf h1
  rcases hc1 with ⟨hcon, _⟩ | ⟨_, hpair1, _, _, _⟩
  · cases hcon
  obtain ⟨_, hc2⟩ := set_spec t1 true true k v2 (.ok d2) t2 hwf1 h2
  rcases hc2 with ⟨hcon, _⟩ | ⟨_, _, hget2, _, hlen2⟩
  · cases hcon
  refine ⟨hget2, ?_⟩
  rcases hlen2 with ⟨_, heq⟩ | ⟨habs, _⟩
  · exact heq
  · exact absurd ⟨v1, hpair1⟩ habs

/-- C6 witness: set "a" to 7, then overwrite with 9 (which triggers a growth
to capacity 4 first): get returns 9 and the length stays 1. -/
theorem C6_witness :
    hashtable_get ⟨[some ([97], 9), none, none, none], 4, 1⟩ [97] = .found 9 ∧
    (⟨[some ([97], 9), none, none, none], 4, 1⟩ : hashtable).length =
      (⟨[some ([97], 7), none], 2, 1⟩ : hashtable).length :=
  C6_overwrite ⟨[none], 1, 0⟩ ⟨[some ([97], 7), none], 2, 1⟩
    ⟨[some ([97], 9), none, none, none], 4, 1⟩ [97] 7 9 [97] [97]
    (by decide) (by decide) (by decide)

/-- C7: a fresh iterator over an unmutated table yields, via successive
advances, exactly the occupied (key, value) pairs of the slot array in
increasing slot-index order, skipping empty slots (`List.filterMap id` of the
slot list is that sequence, each occupied slot contributing exactly once);
and once an advance has signalled done, every further advance signals done
and leaves the iterator unchanged. -/
theorem C7_iteration_complete (t : hashtable)
    (hlen : t.entries.length = t.capacity) :
    run_iter t (hashtable_iterator t) t.capacity = t.entries.filterMap id ∧
    ∀ it it', hashtable_next t it = (false, it') →
      hashtable_next t it' = (false, it') := by
  constructor
  · have h := run_iter_eq t hlen t.capacity 0 none none (by omega)
    simpa [hashtable_iterator] using h
  · exact fun it it' h => next_done_stays t it it' h

/-- C7 witness: iterating the capacity-2 table holding ("a", 7) yields exactly
that one pair, and the exhausted iterator keeps signalling done. -/
theorem C7_witness :
    run_iter ⟨[some ([97], 7), none], 2, 1⟩
      (hashtable_iterator ⟨[some ([97], 7), none], 2, 1⟩) 2 = [([97], 7)] ∧
    hashtable_next ⟨[some ([97], 7), none], 2, 1⟩ ⟨some [97], some 7, 2⟩ =
      (false, ⟨some [97], some 7, 2⟩) :=
  ⟨((C7_iteration_complete ⟨[some ([97], 7), none], 2, 1⟩ (by decide)).1).trans
      (by decide),
   (C7_iteration_complete ⟨[some ([97], 7), none], 2, 1⟩ (by decide)).2
      ⟨some [97], some 7, 2⟩ ⟨some [97], some 7, 2⟩ (by decide)⟩

/-- C8: when doubling the capacity wraps around `size_t` (modulo `2 ^ 64`),
growth fails with the explicit boolean overflow signal and leaves the table
untouched, and a pending set that triggered the growth fails with the NULL
result, also leaving the table unchanged — no crash, no partial state. -/
theorem C8_capacity_overflow (t : hashtable)
    (hov : t.capacity * 2 % U64 < t.capacity) :
    (∀ ca, hashtable_expand ca t = some (false, t)) ∧
    (t.length ≥ t.capacity / 2 →
      ∀ ca sa k v, hashtable_set ca sa t k (some v) = some (.oom, t)) := by
  have hexp : ∀ ca, hashtable_expand ca t = some (false, t) := by
    intro ca
    unfold hashtable_expand
    rw [if_pos hov]
  refine ⟨hexp, fun htrig ca sa k v => ?_⟩
  simp only [hashtable_set]
  rw [if_pos htrig, hexp ca]

/-- C8 witness: a table at the maximal power-of-two capacity `2 ^ 63` at 50%
load: doubling wraps to 0, expansion reports failure, the pending set fails,
and the table is returned unchanged. -/
theorem C8_witness :
    hashtable_expand true ⟨[], 2 ^ 63, 2 ^ 62⟩ =
      some (false, ⟨[], 2 ^ 63, 2 ^ 62⟩) ∧
    hashtable_set true true ⟨[], 2 ^ 63, 2 ^ 62⟩ [97] (some 5) =
      some (.oom, ⟨[], 2 ^ 63, 2 ^ 62⟩) :=
  ⟨(C8_capacity_overflow ⟨[], 2 ^ 63, 2 ^ 62⟩ (by decide)).1 true,
   (C8_capacity_overflow ⟨[], 2 ^ 63, 2 ^ 62⟩ (by decide)).2 (by decide)
      true true [97] 5⟩

/-- C9: the hash function is the 64-bit FNV-1a of the key's bytes (initialised
to the offset constant; each byte XORed in, then multiplied by the prime,
modulo `2 ^ 64`); being a pure function it is deterministic; and `get` and the
insertion helper both derive the starting probe index by the identical
expression `hash & (capacity - 1)`, which for a power-of-two capacity equals
`hash mod capacity`. -/
theorem C9_hash_fnv1a_and_index :
    hash_key [] = FNV_OFFSET ∧
    (∀ ks b, hash_key (ks ++ [b]) =
      ((hash_key ks ^^^ (b % 256)) * FNV_PRIME) % U64) ∧
    (∀ k j, hash_key k &&& (2 ^ j - 1) = hash_key k % 2 ^ j) ∧
    (∀ t k, hashtable_get t k =
      get_loop t.entries t.capacity k t.capacity
        (hash_key k &&& (t.capacity - 1))) ∧
    (∀ (sa : Bool) e c k v u l, hashtable_set_entry sa e c k v u l =
      set_entry_loop sa e c k v u l c (hash_key k &&& (c - 1))) := by
  refine ⟨rfl, fun ks b => ?_, fun k j => ?_, fun t k => rfl,
    fun sa e c k v u l => rfl⟩
  · unfold hash_key
    rw [List.foldl_append]
    rfl
  · apply Nat.eq_of_testBit_eq
    intro i
    rw [Nat.testBit_and, Nat.testBit_mod_two_pow]
    by_cases h : i < j
    · simp [Nat.testBit_two_pow_sub_one, h]
    · simp [Nat.testBit_two_pow_sub_one, h]

/-- C10: in every well-formed (hence every reachable) table, the load factor
bound guarantees an empty slot, so the probe loops of lookup and insertion
terminate within at most `capacity` steps: with fuel `capacity` the lookup
probe never exhausts its fuel and the insertion helper never returns the
non-termination marker. -/
theorem C10_probe_termination (t : hashtable) (hwf : WF t) :
    (∀ k, hashtable_get t k ≠ .fuelOut) ∧
    (∀ (sa : Bool) k v u l,
      hashtable_set_entry sa t.entries t.capacity k v u l ≠ none) := by
  obtain ⟨hlen, hpow, hcnt, hload, _, _⟩ := hwf
  have hc0 : 0 < t.capacity := cap_pos_of_pow t.capacity hpow
  have hocc : occ t.entries < t.capacity := by
    rw [← hcnt]
    omega
  obtain ⟨iE, hiE, hempty⟩ := exists_empty_slot t.entries t.capacity hlen hocc
  constructor
  · intro k
    exact get_loop_ne_fuelOut t.entries t.capacity k iE hiE hempty t.capacity _
      (home_lt t.capacity k hc0)
      (pdist_lt t.capacity _ iE (home_lt t.capacity k hc0) hiE)
  · intro sa k v u l
    exact set_entry_loop_isSome t.entries t.capacity k v u sa l iE hiE hempty
      t.capacity _ (home_lt t.capacity k hc0)
      (pdist_lt t.capacity _ iE (home_lt t.capacity k hc0) hiE)

/-- C10 witness: both probes terminate on the concrete capacity-2 table. -/
theorem C10_witness :
    hashtable_get ⟨[some ([97], 7), none], 2, 1⟩ [98] ≠ .fuelOut ∧
    hashtable_set_entry true [some ([97], 7), none] 2 [99] 3 true 1 ≠ none :=
  ⟨(C10_probe_termination ⟨[some ([97], 7), none], 2, 1⟩ (by decide)).1 [98],
   (C10_probe_termination ⟨[some ([97], 7), none], 2, 1⟩ (by decide)).2
      true [99] 3 true 1⟩
